import Mathlib

/-!
Shallow embedding of the x/cork keeper of the sommelier chain
(source files x/cork/keeper/keeper.go and x/cork/keeper/genesis.go).

Modelling conventions:
* validator addresses (20 bytes) and target contract addresses (20 bytes)
  are modelled as natural numbers standing for their byte values;
* the commitment store, whose persisted keys are the one byte entity
  tag followed by the validator bytes and the target bytes, is modelled
  as an association list from (validator, target) keys to corks: Set
  replaces the entry in place, Get finds the entry, Delete removes it;
  the scheduler store is the same with (blockHeight, validator) keys;
* uint64 store values are modelled on Nat with explicit reduction
  mod 2 ^ 64 where Go performs uint64 arithmetic;
* the staking keeper collaborator is modelled by a total power value
  (sdk.Int read once by GetLastTotalPower) together with a per validator
  consensus power function (int64 via GetConsensusPower), both on Int;
  consensus caps total voting power below 2 ^ 63 so mathematical Int
  addition is faithful to the int64 accumulation in GetWinningVotes;
* the sdk.Dec ratio comparison of GetWinningVotes is modelled on Rat;
* a Go panic during genesis import is modelled by Option.none.
-/

/-- Validator operator address, a 20 byte value. -/
abbrev Val := Nat

/-- Target contract address (go-ethereum common.Address), a 20 byte value. -/
abbrev Addr := Nat

/-- A cork: a commitment carrying a target contract address and an opaque
body. The address field of the Go struct is the canonical string form of
the 20 byte address; it is modelled here directly by the parsed value. -/
structure Cork where
  address : Addr
  body : List Nat
deriving DecidableEq

/-- Structural equality of corks: the generated Equals method of the Cork
protobuf message compares the address and body fields. -/
def Cork.Equals (c1 c2 : Cork) : Bool :=
  c1.address == c2.address && c1.body == c2.body

/-- Association list update used to model KVStore Set: replace the value
at the key in place, or append a fresh entry at the end. -/
def setEntry {α β : Type} [DecidableEq α] : List (α × β) → α → β → List (α × β)
  | [], k, v => [(k, v)]
  | (k0, v0) :: rest, k, v =>
    if k0 = k then (k, v) :: rest else (k0, v0) :: setEntry rest k v

/-- Association list lookup used to model KVStore Get. -/
def lookupEntry {α β : Type} [DecidableEq α] : List (α × β) → α → Option β
  | [], _ => none
  | (k0, v0) :: rest, k => if k0 = k then some v0 else lookupEntry rest k

/-- Association list removal used to model KVStore Delete. -/
def eraseEntry {α β : Type} [DecidableEq α] (l : List (α × β)) (k : α) :
    List (α × β) :=
  l.filter (fun e => decide (e.1 ≠ k))

/-- The slice of module state reachable from the cork keeper: pending
commitments, scheduled commitments, the commit period start height, the
latest invalidation nonce, the cellar ID whitelist and the parameter set
(the parameter subspace is abstracted to a single value). Absent scalar
store keys are Option.none. -/
structure CorkState where
  params : Nat
  corks : List ((Val × Addr) × Cork)
  scheduledCorks : List ((Nat × Val) × Cork)
  commitPeriodStart : Option Nat
  invalidationNonce : Option Nat
  cellarIDs : List Addr
deriving DecidableEq

/-- SetCork stores the commitment under the key built from the validator
and the address parsed from the cork Address field itself. -/
def setCork (s : CorkState) (val : Val) (cork : Cork) : CorkState :=
  { s with corks := setEntry s.corks (val, cork.address) cork }

/-- GetCork looks up the commitment of a validator for a target address;
the Go function returns an empty cork and false when the key is absent,
modelled by Option.none. -/
def getCork (s : CorkState) (val : Val) (cel : Addr) : Option Cork :=
  lookupEntry s.corks (val, cel)

/-- DeleteCork removes the commitment of a validator for a target. -/
def deleteCork (s : CorkState) (val : Val) (cel : Addr) : CorkState :=
  { s with corks := eraseEntry s.corks (val, cel) }

/-- HasCorkForContract reports whether a commitment is stored for the
validator and target. -/
def hasCorkForContract (s : CorkState) (val : Val) (contract : Addr) : Bool :=
  (lookupEntry s.corks (val, contract)).isSome

/-- SetCommitPeriodStart stores the current vote period start height. -/
def setCommitPeriodStart (s : CorkState) (height : Nat) : CorkState :=
  { s with commitPeriodStart := some height }

/-- GetCommitPeriodStart returns the vote period start height, none when
the key was never written. -/
def getCommitPeriodStart (s : CorkState) : Option Nat :=
  s.commitPeriodStart

/-- GetLatestInvalidationNonce reads the stored nonce;
sdk.BigEndianToUint64 of an absent value yields 0. -/
def getLatestInvalidationNonce (s : CorkState) : Nat :=
  s.invalidationNonce.getD 0

/-- SetLatestInvalidationNonce stores the given uint64 nonce; the
reduction mod 2 ^ 64 models the uint64 type of the Go parameter. -/
def setLatestInvalidationNonce (s : CorkState) (n : Nat) : CorkState :=
  { s with invalidationNonce := some (n % 2 ^ 64) }

/-- IncrementInvalidationNonce reads the stored nonce, adds 1 with uint64
wrap around, stores the result and returns it. -/
def incrementInvalidationNonce (s : CorkState) : CorkState × Nat :=
  let nextNonce := (getLatestInvalidationNonce s + 1) % 2 ^ 64
  ({ s with invalidationNonce := some nextNonce }, nextNonce)

/-- The setParams helper stores the module parameter set; the parameter
subspace mechanics are outside the modelled core. -/
def setParams (s : CorkState) (p : Nat) : CorkState :=
  { s with params := p }

/-- Modelled from the spec: SetCellarIDs is called by InitGenesis but its
definition is not among the given keeper sources; per the spec the target
whitelist is a stored set of addresses loaded verbatim. -/
def setCellarIDs (s : CorkState) (ids : List Addr) : CorkState :=
  { s with cellarIDs := ids }

/-- Modelled from the spec: SetScheduledCork is called by InitGenesis but
its definition is not among the given keeper sources; per the spec the
scheduler stores a commitment under the (executionHeight, voterID) key. -/
def setScheduledCork (s : CorkState) (blockHeight : Nat) (val : Val)
    (cork : Cork) : CorkState :=
  { s with scheduledCorks := setEntry s.scheduledCorks (blockHeight, val) cork }

/-- The accumulation step of GetWinningVotes: scan the list of groups
seen so far for an entry whose cork Equals the incoming cork; on a match
add the voter power to that group, otherwise append a fresh group. -/
def addVote : List (Cork × Int) → Cork → Int → List (Cork × Int)
  | [], cork, power => [(cork, power)]
  | (rv, p) :: rest, cork, power =>
    if rv.Equals cork then (rv, p + power) :: rest
    else (rv, p) :: addVote rest cork power

/-- The IterateCorks pass of GetWinningVotes: walk the snapshot of stored
commitments, look up each submitting voter power, fold it into the group
accumulator and delete the visited entry from the store in the same pass. -/
def corkTallyLoop (powerOf : Val → Int) :
    List ((Val × Addr) × Cork) → CorkState → List (Cork × Int) →
    CorkState × List (Cork × Int)
  | [], s, acc => (s, acc)
  | ((val, cel), cork) :: rest, s, acc =>
    corkTallyLoop powerOf rest (deleteCork s val cel)
      (addVote acc cork (powerOf val))

/-- The accumulated voting power of the group of a given cork: the sum of
the powers of the voters whose stored commitment structurally equals it. -/
def corkPower (l : List ((Val × Addr) × Cork)) (powerOf : Val → Int)
    (c : Cork) : Int :=
  ((l.filter (fun e => e.2.Equals c)).map (fun e => powerOf e.1.1)).sum

/-- The group accumulator produced by the tally pass of GetWinningVotes
over a state: the parallel corks and corkPowers slices, zipped. -/
def corkGroups (s : CorkState) (powerOf : Val → Int) : List (Cork × Int) :=
  (corkTallyLoop powerOf s.corks s []).2

/-- GetWinningVotes: read the total power once, tally all stored
commitments into groups while deleting each visited entry, then return
the corks of the groups whose power over total power strictly exceeds
the threshold. The mutated state is returned alongside the winners. -/
def getWinningVotes (s : CorkState) (totalPower : Int) (powerOf : Val → Int)
    (threshold : Rat) : CorkState × List Cork :=
  let res := corkTallyLoop powerOf s.corks s []
  let winningCorks :=
    (res.2.filter
      (fun cp => decide ((cp.2 : Rat) / (totalPower : Rat) > threshold))).map
      Prod.fst
  (res.1, winningCorks)

/-- The visiting loop of IterateCorkAddresses: walk the stored
commitments, extract the target address of each key, skip addresses
already seen, and pass fresh ones to the handler until it stops the
iteration; the returned list is the sequence of handler invocations. -/
def corkAddressLoop (handler : Addr → Bool) :
    List ((Val × Addr) × Cork) → List Addr → List Addr
  | [], _ => []
  | ((_, cel), _) :: rest, seenAddresses =>
    if cel ∈ seenAddresses then corkAddressLoop handler rest seenAddresses
    else if handler cel then [cel]
    else cel :: corkAddressLoop handler rest (cel :: seenAddresses)

/-- IterateCorkAddresses iterates over the distinct target addresses that
have stored commitments, starting from an empty seen set. -/
def iterateCorkAddresses (s : CorkState) (handler : Addr → Bool) : List Addr :=
  corkAddressLoop handler s.corks []

/-- A pending commitment entry of the genesis document: the validator
identity as an unparsed hex string together with the cork. -/
structure ValidatorCork where
  validator : String
  cork : Cork
deriving DecidableEq

/-- A scheduled commitment entry of the genesis document. -/
structure ScheduledCork where
  validator : String
  cork : Cork
  blockHeight : Nat
deriving DecidableEq

/-- The genesis document of the module: parameters, cellar ID whitelist,
invalidation nonce, pending commitments and scheduled commitments. It
carries no commit period height. -/
structure GenesisState where
  params : Nat
  cellarIds : List Addr
  invalidationNonce : Nat
  corks : List ValidatorCork
  scheduledCorks : List ScheduledCork
deriving DecidableEq

/-- The pending commitment loop of InitGenesis: parse each validator
identity and store the cork; a parse failure panics, modelled by none. -/
def loadGenesisCorks (parseVal : String → Option Val) :
    List ValidatorCork → CorkState → Option CorkState
  | [], s => some s
  | vc :: rest, s =>
    match parseVal vc.validator with
    | none => none
    | some valAddr => loadGenesisCorks parseVal rest (setCork s valAddr vc.cork)

/-- The scheduled commitment loop of InitGenesis: parse each validator
identity and schedule the cork at its block height; a parse failure
panics, modelled by none. -/
def loadGenesisScheduledCorks (parseVal : String → Option Val) :
    List ScheduledCork → CorkState → Option CorkState
  | [], s => some s
  | sc :: rest, s =>
    match parseVal sc.validator with
    | none => none
    | some valAddr =>
      loadGenesisScheduledCorks parseVal rest
        (setScheduledCork s sc.blockHeight valAddr sc.cork)

/-- InitGenesis: store the parameters, set the commit period start to the
current block height of the import context, load the cellar IDs and the
invalidation nonce, then load the pending and scheduled commitments,
panicking (none) on any malformed validator identity. The address parser
sdk.ValAddressFromHex is an external collaborator passed as a function. -/
def initGenesis (parseVal : String → Option Val) (blockHeight : Nat)
    (k : CorkState) (gs : GenesisState) : Option CorkState :=
  let s1 := setParams k gs.params
  let s2 := setCommitPeriodStart s1 blockHeight
  let s3 := setCellarIDs s2 gs.cellarIds
  let s4 := setLatestInvalidationNonce s3 gs.invalidationNonce
  match loadGenesisCorks parseVal gs.corks s4 with
  | none => none
  | some s5 => loadGenesisScheduledCorks parseVal gs.scheduledCorks s5

/-! Helper lemmas about the association list store operations. -/

theorem lookupEntry_cons {α β : Type} [DecidableEq α] (k0 : α) (v0 : β)
    (rest : List (α × β)) (k : α) :
    lookupEntry ((k0, v0) :: rest) k =
      if k0 = k then some v0 else lookupEntry rest k := rfl

theorem setEntry_cons {α β : Type} [DecidableEq α] (k0 : α) (v0 : β)
    (rest : List (α × β)) (k : α) (v : β) :
    setEntry ((k0, v0) :: rest) k v =
      if k0 = k then (k, v) :: rest else (k0, v0) :: setEntry rest k v := rfl

theorem lookupEntry_setEntry_self {α β : Type} [DecidableEq α]
    (l : List (α × β)) (k : α) (v : β) :
    lookupEntry (setEntry l k v) k = some v := by
  induction l with
  | nil => simp [setEntry, lookupEntry]
  | cons e rest ih =>
    rcases e with ⟨k0, v0⟩
    by_cases h : k0 = k
    · rw [setEntry_cons, if_pos h, lookupEntry_cons, if_pos rfl]
    · rw [setEntry_cons, if_neg h, lookupEntry_cons, if_neg h]
      exact ih

theorem lookupEntry_setEntry_ne {α β : Type} [DecidableEq α]
    (l : List (α × β)) (k k' : α) (v : β) (h : k' ≠ k) :
    lookupEntry (setEntry l k v) k' = lookupEntry l k' := by
  have hkk : ¬ k = k' := fun hk => h hk.symm
  induction l with
  | nil => simp [setEntry, lookupEntry, hkk]
  | cons e rest ih =>
    rcases e with ⟨k0, v0⟩
    by_cases he : k0 = k
    · rw [setEntry_cons, if_pos he, lookupEntry_cons, if_neg hkk,
        lookupEntry_cons, he, if_neg hkk]
    · rw [setEntry_cons, if_neg he, lookupEntry_cons, lookupEntry_cons]
      by_cases he2 : k0 = k'
      · rw [if_pos he2, if_pos he2]
      · rw [if_neg he2, if_neg he2]
        exact ih

theorem mem_eraseEntry {α β : Type} [DecidableEq α]
    (l : List (α × β)) (k : α) (e : α × β) :
    e ∈ eraseEntry l k ↔ e ∈ l ∧ e.1 ≠ k := by
  simp [eraseEntry, List.mem_filter]

theorem mem_iff_lookupEntry {α β : Type} [DecidableEq α]
    (l : List (α × β)) (k : α) (v : β) (hnd : (l.map Prod.fst).Nodup) :
    (k, v) ∈ l ↔ lookupEntry l k = some v := by
  induction l with
  | nil => simp [lookupEntry]
  | cons e rest ih =>
    rcases e with ⟨k0, v0⟩
    simp only [List.map_cons, List.nodup_cons] at hnd
    rw [lookupEntry_cons]
    by_cases hk : k0 = k
    · subst hk
      rw [if_pos rfl]
      constructor
      · intro hmem
        rcases List.mem_cons.mp hmem with h1 | h1
        · injection h1 with h1a h1b
          subst h1b
          rfl
        · exact absurd (List.mem_map_of_mem Prod.fst h1) hnd.1
      · intro hv
        injection hv with hv1
        subst hv1
        exact List.mem_cons_self _ _
    · rw [if_neg hk, ← ih hnd.2]
      constructor
      · intro hmem
        rcases List.mem_cons.mp hmem with h1 | h1
        · injection h1 with h1a h1b
          exact absurd h1a.symm hk
        · exact h1
      · exact fun h1 => List.mem_cons_of_mem _ h1

/-! Helper lemmas about cork equality and the vote accumulation step. -/

theorem Cork.equals_iff (c1 c2 : Cork) : c1.Equals c2 = true ↔ c1 = c2 := by
  cases c1
  cases c2
  simp [Cork.Equals]

theorem Cork.equals_self (c : Cork) : c.Equals c = true :=
  (Cork.equals_iff c c).mpr rfl

theorem addVote_cons (rv : Cork) (p : Int) (rest : List (Cork × Int))
    (c : Cork) (q : Int) :
    addVote ((rv, p) :: rest) c q =
      if rv.Equals c then (rv, p + q) :: rest
      else (rv, p) :: addVote rest c q := rfl

theorem lookupEntry_addVote_self (acc : List (Cork × Int)) (c : Cork) (q : Int) :
    lookupEntry (addVote acc c q) c = some ((lookupEntry acc c).getD 0 + q) := by
  induction acc with
  | nil => simp [addVote, lookupEntry]
  | cons e rest ih =>
    rcases e with ⟨rv, p⟩
    by_cases h : rv = c
    · subst h
      rw [addVote_cons, if_pos (Cork.equals_self rv), lookupEntry_cons,
        if_pos rfl, lookupEntry_cons, if_pos rfl]
      rfl
    · have heq : ¬ rv.Equals c = true := fun hc => h ((Cork.equals_iff rv c).mp hc)
      rw [addVote_cons, if_neg heq, lookupEntry_cons, if_neg h,
        lookupEntry_cons, if_neg h]
      exact ih

theorem lookupEntry_addVote_ne (acc : List (Cork × Int)) (c c' : Cork) (q : Int)
    (h : c' ≠ c) :
    lookupEntry (addVote acc c q) c' = lookupEntry acc c' := by
  have hcc : ¬ c = c' := fun hk => h hk.symm
  induction acc with
  | nil => simp [addVote, lookupEntry, hcc]
  | cons e rest ih =>
    rcases e with ⟨rv, p⟩
    by_cases he : rv = c
    · subst he
      rw [addVote_cons, if_pos (Cork.equals_self rv), lookupEntry_cons,
        if_neg hcc, lookupEntry_cons, if_neg hcc]
    · have heq : ¬ rv.Equals c = true := fun hc => he ((Cork.equals_iff rv c).mp hc)
      rw [addVote_cons, if_neg heq, lookupEntry_cons, lookupEntry_cons]
      by_cases he2 : rv = c'
      · rw [if_pos he2, if_pos he2]
      · rw [if_neg he2, if_neg he2]
        exact ih

theorem corkPower_nil (powerOf : Val → Int) (c : Cork) :
    corkPower [] powerOf c = 0 := rfl

theorem corkPower_cons (key : Val × Addr) (ck : Cork)
    (l : List ((Val × Addr) × Cork)) (powerOf : Val → Int) (c : Cork) :
    corkPower ((key, ck) :: l) powerOf c =
      (if ck.Equals c then powerOf key.1 else 0) + corkPower l powerOf c := by
  by_cases h : ck.Equals c
  · simp [corkPower, List.filter_cons, h]
  · simp [corkPower, List.filter_cons, h]

/-! The tally pass of GetWinningVotes: characterisation of the group
accumulator and of the state left behind. -/

theorem lookupEntry_corkTallyLoop (powerOf : Val → Int)
    (l : List ((Val × Addr) × Cork)) :
    ∀ (s : CorkState) (acc : List (Cork × Int)) (c : Cork),
      lookupEntry (corkTallyLoop powerOf l s acc).2 c =
        if c ∈ l.map (fun e => e.2) ∨ (lookupEntry acc c).isSome = true
        then some ((lookupEntry acc c).getD 0 + corkPower l powerOf c)
        else none := by
  induction l with
  | nil =>
    intro s acc c
    cases hl : lookupEntry acc c with
    | none => simp [corkTallyLoop, corkPower_nil, hl]
    | some p => simp [corkTallyLoop, corkPower_nil, hl]
  | cons e rest ih =>
    rcases e with ⟨⟨val, cel⟩, cork⟩
    intro s acc c
    rw [show corkTallyLoop powerOf (((val, cel), cork) :: rest) s acc =
        corkTallyLoop powerOf rest (deleteCork s val cel)
          (addVote acc cork (powerOf val)) from rfl, ih]
    by_cases hc : cork = c
    · subst hc
      rw [lookupEntry_addVote_self, corkPower_cons]
      simp [Cork.equals_self, Int.add_assoc]
    · have hne : c ≠ cork := fun h => hc h.symm
      have heqf : ¬ (cork.Equals c = true) :=
        fun h => hc ((Cork.equals_iff _ _).mp h)
      rw [lookupEntry_addVote_ne _ _ _ _ hne, corkPower_cons, if_neg heqf,
        zero_add]
      simp only [List.map_cons]
      have hcond :
          (c ∈ cork :: List.map (fun e => e.2) rest
            ∨ (lookupEntry acc c).isSome = true)
          ↔ (c ∈ List.map (fun e => e.2) rest
            ∨ (lookupEntry acc c).isSome = true) := by
        constructor
        · rintro (h1 | h1)
          · rcases List.mem_cons.mp h1 with h2 | h2
            · exact absurd h2 hne
            · exact Or.inl h2
          · exact Or.inr h1
        · rintro (h1 | h1)
          · exact Or.inl (List.mem_cons_of_mem _ h1)
          · exact Or.inr h1
      exact (if_congr hcond rfl rfl).symm

theorem corkGroups_lookup (s : CorkState) (powerOf : Val → Int) (c : Cork) :
    lookupEntry (corkGroups s powerOf) c =
      if c ∈ s.corks.map (fun e => e.2)
      then some (corkPower s.corks powerOf c)
      else none := by
  rw [corkGroups, lookupEntry_corkTallyLoop]
  have hcond :
      (c ∈ List.map (fun e => e.2) s.corks
        ∨ (lookupEntry ([] : List (Cork × Int)) c).isSome = true)
      ↔ c ∈ List.map (fun e => e.2) s.corks := by
    simp [lookupEntry]
  have harm :
      some ((lookupEntry ([] : List (Cork × Int)) c).getD 0
        + corkPower s.corks powerOf c)
      = some (corkPower s.corks powerOf c) := by
    simp [lookupEntry]
  exact if_congr hcond harm rfl

theorem addVote_keys_sub (c : Cork) (q : Int) (x : Cork) :
    ∀ acc : List (Cork × Int), x ∈ (addVote acc c q).map Prod.fst →
      x ∈ acc.map Prod.fst ∨ x = c := by
  intro acc
  induction acc with
  | nil =>
    intro hx
    simp [addVote] at hx
    exact Or.inr hx
  | cons e rest ih =>
    rcases e with ⟨rv, p⟩
    intro hx
    by_cases h : rv.Equals c
    · rw [addVote_cons, if_pos h] at hx
      exact Or.inl (by simpa using hx)
    · rw [addVote_cons, if_neg h] at hx
      simp only [List.map_cons, List.mem_cons] at hx ⊢
      rcases hx with h1 | h1
      · exact Or.inl (Or.inl h1)
      · rcases ih h1 with h2 | h2
        · exact Or.inl (Or.inr h2)
        · exact Or.inr h2

theorem addVote_keys_nodup (c : Cork) (q : Int) :
    ∀ acc : List (Cork × Int), (acc.map Prod.fst).Nodup →
      ((addVote acc c q).map Prod.fst).Nodup := by
  intro acc
  induction acc with
  | nil =>
    intro _
    simp [addVote]
  | cons e rest ih =>
    rcases e with ⟨rv, p⟩
    intro hnd
    simp only [List.map_cons, List.nodup_cons] at hnd
    by_cases h : rv.Equals c
    · rw [addVote_cons, if_pos h]
      simp only [List.map_cons, List.nodup_cons]
      exact ⟨hnd.1, hnd.2⟩
    · rw [addVote_cons, if_neg h]
      simp only [List.map_cons, List.nodup_cons]
      refine ⟨?_, ih hnd.2⟩
      intro hmem
      rcases addVote_keys_sub c q rv rest hmem with h1 | h1
      · exact hnd.1 h1
      · exact h ((Cork.equals_iff rv c).mpr h1)

theorem corkTallyLoop_keys_nodup (powerOf : Val → Int)
    (l : List ((Val × Addr) × Cork)) :
    ∀ (s : CorkState) (acc : List (Cork × Int)),
      (acc.map Prod.fst).Nodup →
      ((corkTallyLoop powerOf l s acc).2.map Prod.fst).Nodup := by
  induction l with
  | nil =>
    intro s acc h
    exact h
  | cons e rest ih =>
    rcases e with ⟨⟨val, cel⟩, cork⟩
    intro s acc h
    exact ih _ _ (addVote_keys_nodup cork (powerOf val) acc h)

theorem corkGroups_keys_nodup (s : CorkState) (powerOf : Val → Int) :
    ((corkGroups s powerOf).map Prod.fst).Nodup :=
  corkTallyLoop_keys_nodup powerOf s.corks s [] (by simp)

theorem corkTallyLoop_frame (powerOf : Val → Int)
    (l : List ((Val × Addr) × Cork)) :
    ∀ (s : CorkState) (acc : List (Cork × Int)),
      (corkTallyLoop powerOf l s acc).1.params = s.params
      ∧ (corkTallyLoop powerOf l s acc).1.scheduledCorks = s.scheduledCorks
      ∧ (corkTallyLoop powerOf l s acc).1.commitPeriodStart = s.commitPeriodStart
      ∧ (corkTallyLoop powerOf l s acc).1.invalidationNonce = s.invalidationNonce
      ∧ (corkTallyLoop powerOf l s acc).1.cellarIDs = s.cellarIDs := by
  induction l with
  | nil =>
    intro s acc
    exact ⟨rfl, rfl, rfl, rfl, rfl⟩
  | cons e rest ih =>
    rcases e with ⟨⟨val, cel⟩, cork⟩
    intro s acc
    exact ih (deleteCork s val cel) (addVote acc cork (powerOf val))

theorem corkTallyLoop_corks_nil (powerOf : Val → Int)
    (l : List ((Val × Addr) × Cork)) :
    ∀ (s : CorkState) (acc : List (Cork × Int)),
      (∀ e ∈ s.corks, e.1 ∈ l.map Prod.fst) →
      ((corkTallyLoop powerOf l s acc).1).corks = [] := by
  induction l with
  | nil =>
    intro s acc h
    have hnil : s.corks = [] := by
      cases hs : s.corks with
      | nil => rfl
      | cons e2 es =>
        exfalso
        have hmem := h e2 (by rw [hs]; exact List.mem_cons_self _ _)
        simp at hmem
    rw [show corkTallyLoop powerOf [] s acc = (s, acc) from rfl]
    exact hnil
  | cons e rest ih =>
    rcases e with ⟨⟨val, cel⟩, cork⟩
    intro s acc h
    rw [show corkTallyLoop powerOf (((val, cel), cork) :: rest) s acc =
        corkTallyLoop powerOf rest (deleteCork s val cel)
          (addVote acc cork (powerOf val)) from rfl]
    apply ih
    intro e2 he2
    have he3 : e2 ∈ s.corks ∧ e2.1 ≠ (val, cel) :=
      (mem_eraseEntry s.corks (val, cel) e2).mp he2
    have hmem := h e2 he3.1
    simp only [List.map_cons, List.mem_cons] at hmem
    rcases hmem with h1 | h1
    · exact absurd h1 he3.2
    · exact h1

/-! Concrete scenario inputs used by witnesses: voters 1 and 2 both hold
the identical commitment corkC for target address 1, with powers 60 and
40 out of a total power of 100 (scenario A of the spec). -/

def corkC : Cork := { address := 1, body := [33] }

def scenarioAState : CorkState :=
  { params := 0, corks := [((1, 1), corkC), ((2, 1), corkC)],
    scheduledCorks := [], commitPeriodStart := none,
    invalidationNonce := none, cellarIDs := [] }

def scenarioAPower : Val → Int := fun v => if v = 1 then 60 else 40

def emptyState : CorkState :=
  { params := 0, corks := [], scheduledCorks := [], commitPeriodStart := none,
    invalidationNonce := none, cellarIDs := [] }

/-- Claim C1: for every store state, power assignment and threshold, a
distinct commitment group appears in the set returned by GetWinningVotes
if and only if it is a group of the stored commitments whose accumulated
power divided by the total power is strictly greater than the threshold;
equality does not win. The hypothesis of a positive total power marks the
region where the Go ratio computation is defined (a zero total power
would make sdk.Dec.Quo panic). -/
theorem getWinningVotes_mem_iff_quorum (s : CorkState) (totalPower : Int)
    (powerOf : Val → Int) (threshold : Rat) (c : Cork)
    (_htp : 0 < totalPower) :
    c ∈ (getWinningVotes s totalPower powerOf threshold).2 ↔
      (c ∈ s.corks.map (fun e => e.2)
        ∧ (corkPower s.corks powerOf c : Rat) / (totalPower : Rat)
            > threshold) := by
  have hgw : (getWinningVotes s totalPower powerOf threshold).2 =
      ((corkGroups s powerOf).filter
        (fun cp =>
          decide ((cp.2 : Rat) / (totalPower : Rat) > threshold))).map
        Prod.fst := rfl
  rw [hgw]
  constructor
  · intro hmem
    rcases List.mem_map.mp hmem with ⟨cp, hcp, hfst⟩
    rcases List.mem_filter.mp hcp with ⟨hcpmem, hpred⟩
    have hnd := corkGroups_keys_nodup s powerOf
    have hpair : (cp.1, cp.2) ∈ corkGroups s powerOf := by
      rw [Prod.mk.eta]
      exact hcpmem
    have hlook := (mem_iff_lookupEntry _ cp.1 cp.2 hnd).mp hpair
    rw [corkGroups_lookup] at hlook
    subst hfst
    by_cases hin : cp.1 ∈ s.corks.map (fun e => e.2)
    · rw [if_pos hin] at hlook
      injection hlook with hlook
      refine ⟨hin, ?_⟩
      have hq := of_decide_eq_true hpred
      rw [hlook]
      exact hq
    · rw [if_neg hin] at hlook
      exact absurd hlook (by simp)
  · rintro ⟨hmem, hq⟩
    have hlook : lookupEntry (corkGroups s powerOf) c =
        some (corkPower s.corks powerOf c) := by
      rw [corkGroups_lookup, if_pos hmem]
    have hmemg : (c, corkPower s.corks powerOf c) ∈ corkGroups s powerOf :=
      (mem_iff_lookupEntry _ c _ (corkGroups_keys_nodup s powerOf)).mpr hlook
    apply List.mem_map.mpr
    refine ⟨(c, corkPower s.corks powerOf c), ?_, rfl⟩
    exact List.mem_filter.mpr ⟨hmemg, decide_eq_true hq⟩

theorem getWinningVotes_mem_iff_quorum_witness :
    corkC ∈ (getWinningVotes scenarioAState 100 scenarioAPower (66/100)).2 ↔
      (corkC ∈ scenarioAState.corks.map (fun e => e.2)
        ∧ (corkPower scenarioAState.corks scenarioAPower corkC : Rat)
            / ((100 : Int) : Rat) > 66/100) :=
  getWinningVotes_mem_iff_quorum scenarioAState 100 scenarioAPower (66/100)
    corkC (by norm_num)

/-- Claim C2: GetWinningVotes groups stored commitments by structural
equality of the cork, not by voter: the group accumulator has one entry
per distinct cork value, holding the sum of the powers of all voters
whose stored commitment equals it; and in scenario A, where voters 1
(power 60) and 2 (power 40) of a total power 100 both hold the identical
commitment corkC and the threshold is 0.66, the returned set is exactly
the singleton of corkC. -/
theorem getWinningVotes_grouping_scenarioA :
    (∀ (s : CorkState) (powerOf : Val → Int),
      ((corkGroups s powerOf).map Prod.fst).Nodup)
    ∧ (∀ (s : CorkState) (powerOf : Val → Int) (c : Cork) (p : Int),
        ((c, p) ∈ corkGroups s powerOf ↔
          (c ∈ s.corks.map (fun e => e.2)
            ∧ p = corkPower s.corks powerOf c)))
    ∧ (getWinningVotes scenarioAState 100 scenarioAPower (66/100)).2
        = [corkC] := by
  refine ⟨corkGroups_keys_nodup, ?_, ?_⟩
  · intro s powerOf c p
    rw [mem_iff_lookupEntry _ c p (corkGroups_keys_nodup s powerOf),
      corkGroups_lookup]
    by_cases hmem : c ∈ s.corks.map (fun e => e.2)
    · rw [if_pos hmem]
      simp [hmem, eq_comm]
    · rw [if_neg hmem]
      simp [hmem]
  · simp only [getWinningVotes, scenarioAState, corkTallyLoop, addVote,
      scenarioAPower, corkC, Cork.Equals, deleteCork, eraseEntry]
    norm_num [List.filter]

/-- Claim C3: after a call to GetWinningVotes the commitment store is
empty, so no (voter, target) entry present beforehand remains, whether
its group won or lost. -/
theorem getWinningVotes_consumes_all (s : CorkState) (totalPower : Int)
    (powerOf : Val → Int) (threshold : Rat) :
    ((getWinningVotes s totalPower powerOf threshold).1).corks = []
    ∧ ∀ (val : Val) (cel : Addr),
        getCork (getWinningVotes s totalPower powerOf threshold).1 val cel
          = none := by
  have hnil : ((getWinningVotes s totalPower powerOf threshold).1).corks
      = [] := by
    have hdef : (getWinningVotes s totalPower powerOf threshold).1 =
        (corkTallyLoop powerOf s.corks s []).1 := rfl
    rw [hdef]
    exact corkTallyLoop_corks_nil powerOf s.corks s []
      (fun e he => List.mem_map_of_mem Prod.fst he)
  refine ⟨hnil, ?_⟩
  intro val cel
  simp only [getCork, hnil]
  rfl

/-- Claim C8: with zero stored commitments GetWinningVotes returns an
empty winning set and leaves the whole state unchanged. -/
theorem getWinningVotes_empty_store (s : CorkState) (totalPower : Int)
    (powerOf : Val → Int) (threshold : Rat) (h : s.corks = []) :
    getWinningVotes s totalPower powerOf threshold = (s, []) := by
  simp [getWinningVotes, h, corkTallyLoop]

theorem getWinningVotes_empty_store_witness :
    getWinningVotes emptyState 10 (fun _ => 1) (1/2) = (emptyState, []) :=
  getWinningVotes_empty_store emptyState 10 (fun _ => 1) (1/2) rfl

/-- Claim C10: GetWinningVotes mutates only the commitment store: the
invalidation nonce, the commit period start, the scheduled commitments,
the cellar IDs and the parameters are exactly as before the call. -/
theorem getWinningVotes_frame (s : CorkState) (totalPower : Int)
    (powerOf : Val → Int) (threshold : Rat) :
    ((getWinningVotes s totalPower powerOf threshold).1).invalidationNonce
        = s.invalidationNonce
    ∧ ((getWinningVotes s totalPower powerOf threshold).1).commitPeriodStart
        = s.commitPeriodStart
    ∧ ((getWinningVotes s totalPower powerOf threshold).1).scheduledCorks
        = s.scheduledCorks
    ∧ ((getWinningVotes s totalPower powerOf threshold).1).cellarIDs
        = s.cellarIDs
    ∧ ((getWinningVotes s totalPower powerOf threshold).1).params
        = s.params := by
  have h := corkTallyLoop_frame powerOf s.corks s []
  exact ⟨h.2.2.2.1, h.2.2.1, h.2.1, h.2.2.2.2, h.1⟩

/-! Invalidation nonce behaviour. -/

def nonceMaxState : CorkState :=
  { params := 0, corks := [], scheduledCorks := [], commitPeriodStart := none,
    invalidationNonce := some (2 ^ 64 - 1), cellarIDs := [] }

def nonceFiveState : CorkState :=
  { params := 0, corks := [], scheduledCorks := [], commitPeriodStart := none,
    invalidationNonce := some 5, cellarIDs := [] }

/-- Claim C4 counterexample: at the stored nonce 2 ^ 64 - 1 the uint64
increment of IncrementInvalidationNonce wraps to 0, which is not one
greater than the stored value and is in fact a decrease, refuting the
universally quantified claim. -/
theorem incrementInvalidationNonce_wrap_cex :
    getLatestInvalidationNonce nonceMaxState = 2 ^ 64 - 1
    ∧ (incrementInvalidationNonce nonceMaxState).2 = 0
    ∧ ((incrementInvalidationNonce nonceMaxState).1).invalidationNonce = some 0
    ∧ (incrementInvalidationNonce nonceMaxState).2
        ≠ getLatestInvalidationNonce nonceMaxState + 1 := by
  decide

/-- Claim C4 (amended): IncrementInvalidationNonce stores and returns
(n + 1) mod 2 ^ 64 for stored nonce n, which is exactly n + 1 whenever
n + 1 fits in a uint64; and no keeper operation other than
IncrementInvalidationNonce and SetLatestInvalidationNonce changes the
stored nonce. -/
theorem incrementInvalidationNonce_spec (s : CorkState) :
    ((incrementInvalidationNonce s).1).invalidationNonce
        = some ((getLatestInvalidationNonce s + 1) % 2 ^ 64)
    ∧ (incrementInvalidationNonce s).2
        = (getLatestInvalidationNonce s + 1) % 2 ^ 64
    ∧ (getLatestInvalidationNonce s + 1 < 2 ^ 64 →
        (incrementInvalidationNonce s).2 = getLatestInvalidationNonce s + 1)
    ∧ (∀ (val : Val) (cork : Cork),
        (setCork s val cork).invalidationNonce = s.invalidationNonce)
    ∧ (∀ (val : Val) (cel : Addr),
        (deleteCork s val cel).invalidationNonce = s.invalidationNonce)
    ∧ (∀ h : Nat,
        (setCommitPeriodStart s h).invalidationNonce = s.invalidationNonce)
    ∧ (∀ ids : List Addr,
        (setCellarIDs s ids).invalidationNonce = s.invalidationNonce)
    ∧ (∀ (h : Nat) (val : Val) (cork : Cork),
        (setScheduledCork s h val cork).invalidationNonce
          = s.invalidationNonce)
    ∧ (∀ p : Nat, (setParams s p).invalidationNonce = s.invalidationNonce)
    ∧ (∀ (totalPower : Int) (powerOf : Val → Int) (threshold : Rat),
        ((getWinningVotes s totalPower powerOf threshold).1).invalidationNonce
          = s.invalidationNonce) := by
  refine ⟨rfl, rfl, ?_, fun _ _ => rfl, fun _ _ => rfl, fun _ => rfl,
    fun _ => rfl, fun _ _ _ => rfl, fun _ => rfl, ?_⟩
  · intro hlt
    exact Nat.mod_eq_of_lt hlt
  · intro totalPower powerOf threshold
    exact (corkTallyLoop_frame powerOf s.corks s []).2.2.2.1

theorem incrementInvalidationNonce_spec_witness :
    (incrementInvalidationNonce nonceFiveState).2
      = getLatestInvalidationNonce nonceFiveState + 1 :=
  (incrementInvalidationNonce_spec nonceFiveState).2.2.1 (by decide)

/-! Distinct target iteration. -/

theorem corkAddressLoop_nodup_aux (handler : Addr → Bool)
    (l : List ((Val × Addr) × Cork)) :
    ∀ seen : List Addr,
      (corkAddressLoop handler l seen).Nodup
      ∧ ∀ a ∈ corkAddressLoop handler l seen, a ∉ seen := by
  induction l with
  | nil =>
    intro seen
    simp [corkAddressLoop]
  | cons e rest ih =>
    rcases e with ⟨⟨val, cel⟩, cork⟩
    intro seen
    rw [show corkAddressLoop handler (((val, cel), cork) :: rest) seen =
        (if cel ∈ seen then corkAddressLoop handler rest seen
         else if handler cel then [cel]
         else cel :: corkAddressLoop handler rest (cel :: seen)) from rfl]
    by_cases hseen : cel ∈ seen
    · rw [if_pos hseen]
      exact ih seen
    · rw [if_neg hseen]
      by_cases hh : handler cel = true
      · rw [if_pos hh]
        refine ⟨List.nodup_singleton _, ?_⟩
        intro a ha
        rw [List.mem_singleton] at ha
        subst ha
        exact hseen
      · rw [if_neg hh]
        have ihc := ih (cel :: seen)
        constructor
        · refine List.nodup_cons.mpr ⟨?_, ihc.1⟩
          intro hmem
          exact ihc.2 cel hmem (List.mem_cons_self _ _)
        · intro a ha
          rcases List.mem_cons.mp ha with h1 | h1
          · subst h1
            exact hseen
          · intro hmem
            exact ihc.2 a h1 (List.mem_cons_of_mem _ hmem)

theorem corkAddressLoop_sound (handler : Addr → Bool)
    (l : List ((Val × Addr) × Cork)) :
    ∀ (seen : List Addr) (a : Addr), a ∈ corkAddressLoop handler l seen →
      ∃ e ∈ l, e.1.2 = a := by
  induction l with
  | nil =>
    intro seen a ha
    simp [corkAddressLoop] at ha
  | cons e rest ih =>
    rcases e with ⟨⟨val, cel⟩, cork⟩
    intro seen a ha
    rw [show corkAddressLoop handler (((val, cel), cork) :: rest) seen =
        (if cel ∈ seen then corkAddressLoop handler rest seen
         else if handler cel then [cel]
         else cel :: corkAddressLoop handler rest (cel :: seen)) from rfl] at ha
    by_cases hseen : cel ∈ seen
    · rw [if_pos hseen] at ha
      rcases ih seen a ha with ⟨e2, he2, hee⟩
      exact ⟨e2, List.mem_cons_of_mem _ he2, hee⟩
    · rw [if_neg hseen] at ha
      by_cases hh : handler cel = true
      · rw [if_pos hh] at ha
        rw [List.mem_singleton] at ha
        exact ⟨((val, cel), cork), List.mem_cons_self _ _, ha.symm⟩
      · rw [if_neg hh] at ha
        rcases List.mem_cons.mp ha with h1 | h1
        · exact ⟨((val, cel), cork), List.mem_cons_self _ _, h1.symm⟩
        · rcases ih _ a h1 with ⟨e2, he2, hee⟩
          exact ⟨e2, List.mem_cons_of_mem _ he2, hee⟩

theorem corkAddressLoop_complete (l : List ((Val × Addr) × Cork)) :
    ∀ (seen : List Addr) (a : Addr),
      a ∈ corkAddressLoop (fun _ => false) l seen ↔
        ((∃ e ∈ l, e.1.2 = a) ∧ a ∉ seen) := by
  induction l with
  | nil =>
    intro seen a
    simp [corkAddressLoop]
  | cons e rest ih =>
    rcases e with ⟨⟨val, cel⟩, cork⟩
    intro seen a
    rw [show corkAddressLoop (fun _ => false) (((val, cel), cork) :: rest) seen =
        (if cel ∈ seen then corkAddressLoop (fun _ => false) rest seen
         else cel :: corkAddressLoop (fun _ => false) rest (cel :: seen))
      from rfl]
    by_cases hseen : cel ∈ seen
    · rw [if_pos hseen, ih seen a]
      constructor
      · rintro ⟨⟨e2, he2, hee⟩, hnot⟩
        exact ⟨⟨e2, List.mem_cons_of_mem _ he2, hee⟩, hnot⟩
      · rintro ⟨⟨e2, he2, hee⟩, hnot⟩
        rcases List.mem_cons.mp he2 with h1 | h1
        · rw [h1] at hee
          have hcel : cel = a := hee
          subst hcel
          exact absurd hseen hnot
        · exact ⟨⟨e2, h1, hee⟩, hnot⟩
    · rw [if_neg hseen]
      constructor
      · intro ha
        rcases List.mem_cons.mp ha with h1 | h1
        · refine ⟨⟨((val, cel), cork), List.mem_cons_self _ _, h1.symm⟩, ?_⟩
          rw [h1]
          exact hseen
        · rcases (ih (cel :: seen) a).mp h1 with ⟨⟨e2, he2, hee⟩, hnot⟩
          exact ⟨⟨e2, List.mem_cons_of_mem _ he2, hee⟩,
            fun hmem => hnot (List.mem_cons_of_mem _ hmem)⟩
      · rintro ⟨⟨e2, he2, hee⟩, hnot⟩
        by_cases hac : a = cel
        · subst hac
          exact List.mem_cons_self _ _
        · apply List.mem_cons_of_mem
          apply (ih (cel :: seen) a).mpr
          refine ⟨?_, ?_⟩
          · rcases List.mem_cons.mp he2 with h1 | h1
            · exfalso
              rw [h1] at hee
              have hcel : cel = a := hee
              exact hac hcel.symm
            · exact ⟨e2, h1, hee⟩
          · intro hmem
            rcases List.mem_cons.mp hmem with h2 | h2
            · exact hac h2
            · exact hnot h2

/-- Claim C7: the distinct target iteration of IterateCorkAddresses
invokes its handler at most once per distinct target address, only on
addresses that have at least one stored commitment, and with a
non-stopping handler it yields an address exactly when some stored
commitment references it. -/
theorem iterateCorkAddresses_distinct (s : CorkState) (handler : Addr → Bool) :
    (iterateCorkAddresses s handler).Nodup
    ∧ (∀ a ∈ iterateCorkAddresses s handler, ∃ e ∈ s.corks, e.1.2 = a)
    ∧ (∀ a : Addr,
        a ∈ iterateCorkAddresses s (fun _ => false) ↔
          ∃ e ∈ s.corks, e.1.2 = a) := by
  refine ⟨(corkAddressLoop_nodup_aux handler s.corks []).1,
    fun a ha => corkAddressLoop_sound handler s.corks [] a ha, ?_⟩
  intro a
  rw [iterateCorkAddresses, corkAddressLoop_complete s.corks [] a]
  simp

theorem iterateCorkAddresses_distinct_witness :
    (iterateCorkAddresses scenarioAState (fun _ => false)).Nodup
    ∧ (∃ e ∈ scenarioAState.corks, e.1.2 = 1) :=
  ⟨(iterateCorkAddresses_distinct scenarioAState (fun _ => false)).1,
   (iterateCorkAddresses_distinct scenarioAState (fun _ => false)).2.1 1
     (by decide)⟩

/-- Claim C9: SetCork keys the stored entry by the address taken from the
cork Address field itself: after SetCork, GetCork at that address returns
the cork, and GetCork at every other address is exactly as before the
call (in particular empty when not otherwise populated). -/
theorem setCork_keyed_by_cork_address (s : CorkState) (val : Val)
    (cork : Cork) :
    getCork (setCork s val cork) val cork.address = some cork
    ∧ ∀ cel : Addr, cel ≠ cork.address →
        getCork (setCork s val cork) val cel = getCork s val cel := by
  constructor
  · exact lookupEntry_setEntry_self s.corks (val, cork.address) cork
  · intro cel hne
    exact lookupEntry_setEntry_ne s.corks (val, cork.address) (val, cel) cork
      (fun h => hne (congrArg Prod.snd h))

theorem setCork_keyed_by_cork_address_witness :
    getCork (setCork emptyState 3 corkC) 3 corkC.address = some corkC
    ∧ getCork (setCork emptyState 3 corkC) 3 2 = getCork emptyState 3 2 :=
  ⟨(setCork_keyed_by_cork_address emptyState 3 corkC).1,
   (setCork_keyed_by_cork_address emptyState 3 corkC).2 2 (by decide)⟩

/-! Genesis import. -/

theorem loadGenesisCorks_cons (parseVal : String → Option Val)
    (vc0 : ValidatorCork) (rest : List ValidatorCork) (s : CorkState) :
    loadGenesisCorks parseVal (vc0 :: rest) s =
      (match parseVal vc0.validator with
       | none => none
       | some valAddr =>
          loadGenesisCorks parseVal rest (setCork s valAddr vc0.cork)) := rfl

theorem loadGenesisScheduledCorks_cons (parseVal : String → Option Val)
    (sc0 : ScheduledCork) (rest : List ScheduledCork) (s : CorkState) :
    loadGenesisScheduledCorks parseVal (sc0 :: rest) s =
      (match parseVal sc0.validator with
       | none => none
       | some valAddr =>
          loadGenesisScheduledCorks parseVal rest
            (setScheduledCork s sc0.blockHeight valAddr sc0.cork)) := rfl

theorem loadGenesisCorks_frame (parseVal : String → Option Val) :
    ∀ (l : List ValidatorCork) (s s2 : CorkState),
      loadGenesisCorks parseVal l s = some s2 →
      s2.scheduledCorks = s.scheduledCorks
      ∧ s2.commitPeriodStart = s.commitPeriodStart
      ∧ s2.invalidationNonce = s.invalidationNonce
      ∧ s2.cellarIDs = s.cellarIDs
      ∧ s2.params = s.params := by
  intro l
  induction l with
  | nil =>
    intro s s2 h
    injection h with h
    subst h
    exact ⟨rfl, rfl, rfl, rfl, rfl⟩
  | cons vc0 rest ih =>
    intro s s2 h
    rw [loadGenesisCorks_cons] at h
    cases hp : parseVal vc0.validator with
    | none =>
      rw [hp] at h
      exact Option.noConfusion h
    | some v =>
      rw [hp] at h
      exact ih (setCork s v vc0.cork) s2 h

theorem loadGenesisScheduledCorks_frame (parseVal : String → Option Val) :
    ∀ (l : List ScheduledCork) (s s2 : CorkState),
      loadGenesisScheduledCorks parseVal l s = some s2 →
      s2.corks = s.corks
      ∧ s2.commitPeriodStart = s.commitPeriodStart
      ∧ s2.invalidationNonce = s.invalidationNonce
      ∧ s2.cellarIDs = s.cellarIDs
      ∧ s2.params = s.params := by
  intro l
  induction l with
  | nil =>
    intro s s2 h
    injection h with h
    subst h
    exact ⟨rfl, rfl, rfl, rfl, rfl⟩
  | cons sc0 rest ih =>
    intro s s2 h
    rw [loadGenesisScheduledCorks_cons] at h
    cases hp : parseVal sc0.validator with
    | none =>
      rw [hp] at h
      exact Option.noConfusion h
    | some v =>
      rw [hp] at h
      exact ih (setScheduledCork s sc0.blockHeight v sc0.cork) s2 h

theorem loadGenesisCorks_untouched (parseVal : String → Option Val) :
    ∀ (l : List ValidatorCork) (s s2 : CorkState) (k : Val × Addr),
      loadGenesisCorks parseVal l s = some s2 →
      (∀ vc ∈ l, ∀ v, parseVal vc.validator = some v →
        (v, vc.cork.address) ≠ k) →
      lookupEntry s2.corks k = lookupEntry s.corks k := by
  intro l
  induction l with
  | nil =>
    intro s s2 k h _
    injection h with h
    subst h
    rfl
  | cons vc0 rest ih =>
    intro s s2 k h hk
    rw [loadGenesisCorks_cons] at h
    cases hp : parseVal vc0.validator with
    | none =>
      rw [hp] at h
      exact Option.noConfusion h
    | some v =>
      rw [hp] at h
      have h2 := ih (setCork s v vc0.cork) s2 k h
        (fun vc2 hvc2 v2 hp2 => hk vc2 (List.mem_cons_of_mem _ hvc2) v2 hp2)
      rw [h2]
      exact lookupEntry_setEntry_ne s.corks (v, vc0.cork.address) k vc0.cork
        (fun hkk => hk vc0 (List.mem_cons_self _ _) v hp hkk.symm)

theorem loadGenesisScheduledCorks_untouched (parseVal : String → Option Val) :
    ∀ (l : List ScheduledCork) (s s2 : CorkState) (k : Nat × Val),
      loadGenesisScheduledCorks parseVal l s = some s2 →
      (∀ sc ∈ l, ∀ v, parseVal sc.validator = some v →
        (sc.blockHeight, v) ≠ k) →
      lookupEntry s2.scheduledCorks k = lookupEntry s.scheduledCorks k := by
  intro l
  induction l with
  | nil =>
    intro s s2 k h _
    injection h with h
    subst h
    rfl
  | cons sc0 rest ih =>
    intro s s2 k h hk
    rw [loadGenesisScheduledCorks_cons] at h
    cases hp : parseVal sc0.validator with
    | none =>
      rw [hp] at h
      exact Option.noConfusion h
    | some v =>
      rw [hp] at h
      have h2 := ih (setScheduledCork s sc0.blockHeight v sc0.cork) s2 k h
        (fun sc2 hsc2 v2 hp2 => hk sc2 (List.mem_cons_of_mem _ hsc2) v2 hp2)
      rw [h2]
      exact lookupEntry_setEntry_ne s.scheduledCorks (sc0.blockHeight, v) k
        sc0.cork
        (fun hkk => hk sc0 (List.mem_cons_self _ _) v hp hkk.symm)

theorem loadGenesisCorks_loads (parseVal : String → Option Val) :
    ∀ (l : List ValidatorCork) (s s2 : CorkState),
      loadGenesisCorks parseVal l s = some s2 →
      (l.map (fun vc => (parseVal vc.validator, vc.cork.address))).Nodup →
      ∀ vc ∈ l, ∀ v, parseVal vc.validator = some v →
        lookupEntry s2.corks (v, vc.cork.address) = some vc.cork := by
  intro l
  induction l with
  | nil =>
    intro s s2 h hnd vc hvc
    exact absurd hvc (List.not_mem_nil vc)
  | cons vc0 rest ih =>
    intro s s2 h hnd vc hvc v hp
    rw [loadGenesisCorks_cons] at h
    cases hp0 : parseVal vc0.validator with
    | none =>
      rw [hp0] at h
      exact Option.noConfusion h
    | some v0 =>
      rw [hp0] at h
      simp only [List.map_cons, List.nodup_cons] at hnd
      rcases List.mem_cons.mp hvc with h1 | h1
      · subst h1
        rw [hp] at hp0
        injection hp0 with hv
        subst hv
        have hu := loadGenesisCorks_untouched parseVal rest
          (setCork s v vc.cork) s2 (v, vc.cork.address) h ?_
        · rw [hu]
          exact lookupEntry_setEntry_self s.corks (v, vc.cork.address) vc.cork
        · intro vc2 hvc2 v2 hp2 heq
          apply hnd.1
          have hm : (parseVal vc2.validator, vc2.cork.address) ∈
              rest.map (fun vc3 => (parseVal vc3.validator, vc3.cork.address)) :=
            List.mem_map_of_mem _ hvc2
          injection heq with he1 he2
          rw [hp2, he1, he2] at hm
          rw [hp]
          exact hm
      · exact ih (setCork s v0 vc0.cork) s2 h hnd.2 vc h1 v hp

theorem loadGenesisScheduledCorks_loads (parseVal : String → Option Val) :
    ∀ (l : List ScheduledCork) (s s2 : CorkState),
      loadGenesisScheduledCorks parseVal l s = some s2 →
      (l.map (fun sc => (sc.blockHeight, parseVal sc.validator))).Nodup →
      ∀ sc ∈ l, ∀ v, parseVal sc.validator = some v →
        lookupEntry s2.scheduledCorks (sc.blockHeight, v) = some sc.cork := by
  intro l
  induction l with
  | nil =>
    intro s s2 h hnd sc hsc
    exact absurd hsc (List.not_mem_nil sc)
  | cons sc0 rest ih =>
    intro s s2 h hnd sc hsc v hp
    rw [loadGenesisScheduledCorks_cons] at h
    cases hp0 : parseVal sc0.validator with
    | none =>
      rw [hp0] at h
      exact Option.noConfusion h
    | some v0 =>
      rw [hp0] at h
      simp only [List.map_cons, List.nodup_cons] at hnd
      rcases List.mem_cons.mp hsc with h1 | h1
      · subst h1
        rw [hp] at hp0
        injection hp0 with hv
        subst hv
        have hu := loadGenesisScheduledCorks_untouched parseVal rest
          (setScheduledCork s sc.blockHeight v sc.cork) s2
          (sc.blockHeight, v) h ?_
        · rw [hu]
          exact lookupEntry_setEntry_self s.scheduledCorks
            (sc.blockHeight, v) sc.cork
        · intro sc2 hsc2 v2 hp2 heq
          apply hnd.1
          have hm : (sc2.blockHeight, parseVal sc2.validator) ∈
              rest.map (fun sc3 => (sc3.blockHeight, parseVal sc3.validator)) :=
            List.mem_map_of_mem _ hsc2
          injection heq with he1 he2
          rw [hp2, he1, he2] at hm
          rw [hp]
          exact hm
      · exact ih (setScheduledCork s sc0.blockHeight v0 sc0.cork) s2 h
          hnd.2 sc h1 v hp

theorem loadGenesisCorks_none (parseVal : String → Option Val) :
    ∀ (l : List ValidatorCork) (s : CorkState),
      (∃ vc ∈ l, parseVal vc.validator = none) →
      loadGenesisCorks parseVal l s = none := by
  intro l
  induction l with
  | nil =>
    intro s h
    rcases h with ⟨vc, hvc, _⟩
    exact absurd hvc (List.not_mem_nil vc)
  | cons vc0 rest ih =>
    intro s h
    rw [loadGenesisCorks_cons]
    cases hp : parseVal vc0.validator with
    | none => rfl
    | some v =>
      rcases h with ⟨vc, hvc, hpn⟩
      rcases List.mem_cons.mp hvc with h1 | h1
      · subst h1
        rw [hp] at hpn
        exact Option.noConfusion hpn
      · exact ih (setCork s v vc0.cork) ⟨vc, h1, hpn⟩

theorem loadGenesisScheduledCorks_none (parseVal : String → Option Val) :
    ∀ (l : List ScheduledCork) (s : CorkState),
      (∃ sc ∈ l, parseVal sc.validator = none) →
      loadGenesisScheduledCorks parseVal l s = none := by
  intro l
  induction l with
  | nil =>
    intro s h
    rcases h with ⟨sc, hsc, _⟩
    exact absurd hsc (List.not_mem_nil sc)
  | cons sc0 rest ih =>
    intro s h
    rw [loadGenesisScheduledCorks_cons]
    cases hp : parseVal sc0.validator with
    | none => rfl
    | some v =>
      rcases h with ⟨sc, hsc, hpn⟩
      rcases List.mem_cons.mp hsc with h1 | h1
      · subst h1
        rw [hp] at hpn
        exact Option.noConfusion hpn
      · exact ih (setScheduledCork s sc0.blockHeight v sc0.cork) ⟨sc, h1, hpn⟩

theorem initGenesis_eq (parseVal : String → Option Val) (blockHeight : Nat)
    (k : CorkState) (gs : GenesisState) :
    initGenesis parseVal blockHeight k gs =
      (match loadGenesisCorks parseVal gs.corks
          (setLatestInvalidationNonce
            (setCellarIDs
              (setCommitPeriodStart (setParams k gs.params) blockHeight)
              gs.cellarIds)
            gs.invalidationNonce) with
       | none => none
       | some s5 =>
          loadGenesisScheduledCorks parseVal gs.scheduledCorks s5) := rfl

/-- Claim C5: for every genesis document, a successful InitGenesis sets
the commit period start to the current block height of the import
context (the document carries no period height at all), and loads the
cellar ID whitelist, the invalidation nonce and, for documents whose
entries have distinct store keys, every pending and scheduled commitment
verbatim from the document. -/
theorem initGenesis_imports (parseVal : String → Option Val)
    (blockHeight : Nat) (k : CorkState) (gs : GenesisState) (s2 : CorkState)
    (h : initGenesis parseVal blockHeight k gs = some s2) :
    s2.commitPeriodStart = some blockHeight
    ∧ s2.cellarIDs = gs.cellarIds
    ∧ (gs.invalidationNonce < 2 ^ 64 →
        s2.invalidationNonce = some gs.invalidationNonce)
    ∧ ((gs.corks.map
          (fun vc => (parseVal vc.validator, vc.cork.address))).Nodup →
        ∀ vc ∈ gs.corks, ∀ v, parseVal vc.validator = some v →
          lookupEntry s2.corks (v, vc.cork.address) = some vc.cork)
    ∧ ((gs.scheduledCorks.map
          (fun sc => (sc.blockHeight, parseVal sc.validator))).Nodup →
        ∀ sc ∈ gs.scheduledCorks, ∀ v, parseVal sc.validator = some v →
          lookupEntry s2.scheduledCorks (sc.blockHeight, v)
            = some sc.cork) := by
  rw [initGenesis_eq] at h
  cases hm : loadGenesisCorks parseVal gs.corks
      (setLatestInvalidationNonce
        (setCellarIDs
          (setCommitPeriodStart (setParams k gs.params) blockHeight)
          gs.cellarIds)
        gs.invalidationNonce) with
  | none =>
    rw [hm] at h
    exact Option.noConfusion h
  | some s5 =>
    rw [hm] at h
    have hf5 := loadGenesisCorks_frame parseVal gs.corks _ s5 hm
    have hf2 := loadGenesisScheduledCorks_frame parseVal gs.scheduledCorks
      s5 s2 h
    refine ⟨?_, ?_, ?_, ?_, ?_⟩
    · exact hf2.2.1.trans hf5.2.1
    · exact hf2.2.2.2.1.trans hf5.2.2.2.1
    · intro hlt
      rw [hf2.2.2.1, hf5.2.2.1]
      show some (gs.invalidationNonce % 2 ^ 64) = some gs.invalidationNonce
      rw [Nat.mod_eq_of_lt hlt]
    · intro hnd vc hvc v hp
      rw [hf2.1]
      exact loadGenesisCorks_loads parseVal gs.corks _ s5 hm hnd vc hvc v hp
    · intro hnd sc hsc v hp
      exact loadGenesisScheduledCorks_loads parseVal gs.scheduledCorks
        s5 s2 h hnd sc hsc v hp

/-- Claim C6: if any pending or scheduled commitment entry of the
genesis document carries a voter identity that fails to parse as a
validator address, InitGenesis panics (modelled by none) instead of
completing with partial state. -/
theorem initGenesis_malformed_fatal (parseVal : String → Option Val)
    (blockHeight : Nat) (k : CorkState) (gs : GenesisState)
    (h : (∃ vc ∈ gs.corks, parseVal vc.validator = none)
      ∨ (∃ sc ∈ gs.scheduledCorks, parseVal sc.validator = none)) :
    initGenesis parseVal blockHeight k gs = none := by
  rw [initGenesis_eq]
  rcases h with h | h
  · rw [loadGenesisCorks_none parseVal gs.corks _ h]
  · cases hm : loadGenesisCorks parseVal gs.corks
        (setLatestInvalidationNonce
          (setCellarIDs
            (setCommitPeriodStart (setParams k gs.params) blockHeight)
            gs.cellarIds)
          gs.invalidationNonce) with
    | none => rfl
    | some s5 =>
      exact loadGenesisScheduledCorks_none parseVal gs.scheduledCorks s5 h

/-! Concrete genesis inputs used by the genesis witnesses. -/

def parseConst : String → Option Val := fun _ => some 9

def parseFail : String → Option Val := fun _ => none

def genesisW : GenesisState :=
  { params := 2, cellarIds := [5, 6], invalidationNonce := 4,
    corks := [{ validator := "v", cork := corkC }],
    scheduledCorks :=
      [{ validator := "v", cork := corkC, blockHeight := 11 }] }

def importedW : CorkState :=
  { params := 2, corks := [((9, 1), corkC)],
    scheduledCorks := [((11, 9), corkC)], commitPeriodStart := some 7,
    invalidationNonce := some 4, cellarIDs := [5, 6] }

theorem initGenesis_imports_witness :
    initGenesis parseConst 7 emptyState genesisW = some importedW
    ∧ importedW.commitPeriodStart = some 7
    ∧ importedW.cellarIDs = genesisW.cellarIds :=
  ⟨by decide,
   (initGenesis_imports parseConst 7 emptyState genesisW importedW
     (by decide)).1,
   (initGenesis_imports parseConst 7 emptyState genesisW importedW
     (by decide)).2.1⟩

theorem initGenesis_malformed_fatal_witness :
    initGenesis parseFail 7 emptyState genesisW = none :=
  initGenesis_malformed_fatal parseFail 7 emptyState genesisW
    (Or.inl ⟨{ validator := "v", cork := corkC }, List.mem_cons_self _ _,
      rfl⟩)
